import Mathlib

/-!
Shallow embedding of the tile-storage core of the Cyancia repository
(crates/cyancia_image/src/tile.rs and the mapping-buffer construction of
crates/cyancia_canvas/src/render.rs), together with theorems settling the
specification claims about it.

Modelling conventions:
* `Id<Layer>` (a Uuid wrapper) is modelled as `Nat`; the sentinel layer id
  `Uuid::from_u128(0)` is `0`.
* `UVec2` is a pair of `Nat`s holding u32 values; u32 overflow/underflow is
  made explicit (`Option`) exactly where the Rust arithmetic can overflow.
* The `DashMap` tile index is an association list; `Vec` is `List` with
  `Vec::pop` taking the last element.
* GPU objects (textures, views) are represented by the data that identifies
  them: a pile is its layer capacity, a texture view is the (pile, layer)
  address it was created over, the standalone empty-tile view is a distinct
  constructor.
* Fallible points of the Rust code (`unwrap`, slice indexing, u32 overflow
  in debug builds) return `none`.
-/

namespace Cyancia

/-- glam `UVec2`: a pair of u32 values. -/
structure UVec2 where
  x : Nat
  y : Nat
deriving DecidableEq, Repr

/-- `Id<Layer>`: a Uuid, modelled as a natural number. -/
abbrev LayerId := Nat

/-- `TileId` from tile.rs: layer identity, grid coordinate, physical slot. -/
structure TileId where
  image_layer : LayerId
  index : UVec2
  pile_index : Nat
  pile_layer : Nat
deriving DecidableEq, Repr

/-- A wgpu `TextureView`, identified by what it was created over:
the standalone empty-tile texture, or array layer `layer` of pile `pile`. -/
inductive TexView where
  | emptyTile : TexView
  | pileView (pile : Nat) (layer : Nat) : TexView
deriving DecidableEq, Repr

/-- `Tile` from tile.rs: an id plus a bindable view. -/
structure Tile where
  id : TileId
  view : TexView
deriving DecidableEq, Repr

/-- `GpuTilePile`: a GPU texture array; what matters for the model is how
many array layers (tile slots) it has. -/
structure GpuTilePile where
  capacity : Nat
deriving DecidableEq, Repr

/-- A tile-index key: `(Id<Layer>, UVec2)`. -/
abbrev TileKey := LayerId × UVec2

/-- `GpuTileStorage`: the pile list, the tile index (association list
standing for the `DashMap`), and the free-slot list `available_slices`
(`Vec<(usize, usize)>`, popped from the end). -/
structure GpuTileStorage where
  piles : List GpuTilePile
  tiles : List (TileKey × Tile)
  available_slices : List (Nat × Nat)
deriving DecidableEq, Repr

/-- `GpuTileStorage::TILE_SIZE`. -/
def TILE_SIZE : Nat := 256

/-- `GpuTileStorage::TILES_PER_PILE`. -/
def TILES_PER_PILE : Nat := 256

/-- `u32::MAX`. -/
def U32_MAX : Nat := 2 ^ 32 - 1

/-- `GpuTileStorage::EMPTY_TILE_ID`. -/
def EMPTY_TILE_ID : TileId :=
  { image_layer := 0, index := ⟨0, 0⟩, pile_index := 0, pile_layer := 0 }

/-- The key under which the sentinel tile is stored. -/
def sentinelKey : TileKey := (EMPTY_TILE_ID.image_layer, EMPTY_TILE_ID.index)

/-- The sentinel tile inserted by `GpuTileStorage::new`: the empty-tile id
with the view over the standalone empty-tile texture. -/
def emptyTile : Tile := { id := EMPTY_TILE_ID, view := TexView.emptyTile }

/-- `GpuTileStorage::calc_tile_count`: per-axis ceiling division of the
image size by the tile size (`u32::div_ceil`). -/
def calc_tile_count (image_size : UVec2) : UVec2 :=
  ⟨(image_size.x + TILE_SIZE - 1) / TILE_SIZE, (image_size.y + TILE_SIZE - 1) / TILE_SIZE⟩

/-- Association-list lookup standing for `DashMap::get` / the `entry` probe:
the value stored under key `k`, if present. -/
def findTile (k : TileKey) : List (TileKey × Tile) → Option Tile
  | [] => none
  | e :: rest => if e.1 = k then some e.2 else findTile k rest

/-- `GpuTileStorage::new`: one pile (the 1-layer empty-tile texture), the
tile index holding only the sentinel entry, an empty free-slot list. -/
def GpuTileStorage.new : GpuTileStorage :=
  { piles := [{ capacity := 1 }]
    tiles := [(sentinelKey, emptyTile)]
    available_slices := [] }

/-- `GpuTileStorage::get_tile`: read-only lookup; on a miss, return the
sentinel entry with only `id.index` patched to the requested coordinate.
`none` models the `unwrap` panic when the sentinel entry is absent. -/
def get_tile (s : GpuTileStorage) (image_layer : LayerId) (index : UVec2) : Option Tile :=
  match findTile (image_layer, index) s.tiles with
  | some t => some t
  | none =>
    match findTile sentinelKey s.tiles with
    | some e => some { e with id := { e.id with index := index } }
    | none => none

/-- `GpuTileStorage::try_allocate_new_tile_pile`: if the free-slot list is
non-empty do nothing; otherwise push a fresh pile of `TILES_PER_PILE`
layers and extend the free-slot list with all of its slots
`(pile_index, 0) .. (pile_index, TILES_PER_PILE - 1)`. -/
def try_allocate_new_tile_pile (s : GpuTileStorage) : GpuTileStorage :=
  if s.available_slices.isEmpty then
    let pile_index := s.piles.length
    { s with
      piles := s.piles ++ [{ capacity := TILES_PER_PILE }]
      available_slices :=
        s.available_slices ++ (List.range TILES_PER_PILE).map (fun x => (pile_index, x)) }
  else s

/-- `GpuTileStorage::get_tile_mut` (get-or-allocate): return the stored tile
when the key is occupied; otherwise run `try_allocate_new_tile_pile`, pop
the last free slot (`Vec::pop`, `none` models the `unwrap` panic), create a
view over that slot of the indexed pile (`none` models the pile-indexing
panic), insert the new tile under the key and return it. -/
def get_tile_mut (s : GpuTileStorage) (image_layer : LayerId) (index : UVec2) :
    Option (Tile × GpuTileStorage) :=
  match findTile (image_layer, index) s.tiles with
  | some t => some (t, s)
  | none =>
    let s1 := try_allocate_new_tile_pile s
    match s1.available_slices.getLast? with
    | none => none
    | some (pile_index, slice_index) =>
      if pile_index < s1.piles.length then
        let tile : Tile :=
          { id := { image_layer := image_layer, index := index,
                    pile_index := pile_index, pile_layer := slice_index }
            view := TexView.pileView pile_index slice_index }
        some (tile,
          { s1 with
            tiles := ((image_layer, index), tile) :: s1.tiles
            available_slices := s1.available_slices.dropLast })
      else none

/-- One `copy_texture_to_texture` recorded by `upload_image`: destination
slot `(dstPile, dstLayer)` at origin (0,0,z), copy extent
`width × height`, and the staged chunk data `src dx dy`. -/
structure CopyCmd where
  dstPile : Nat
  dstLayer : Nat
  width : Nat
  height : Nat
  src : Nat → Nat → Nat

/-- The copy command `upload_image` records for one target tile: extent
`min(TILE_SIZE, image_extent − chunk_origin)` per axis (the `img.view`
sub-image), data read from the image at the chunk origin. -/
def chunkCmd (w h : Nat) (img : Nat → Nat → Nat) (t : Tile) : CopyCmd :=
  { dstPile := t.id.pile_index
    dstLayer := t.id.pile_layer
    width := min TILE_SIZE (w - t.id.index.x * TILE_SIZE)
    height := min TILE_SIZE (h - t.id.index.y * TILE_SIZE)
    src := fun dx dy => img (t.id.index.x * TILE_SIZE + dx) (t.id.index.y * TILE_SIZE + dy) }

/-- The coordinate enumeration order of `upload_image`: `x` outer,
`y` inner, as in the nested `flat_map`. -/
def uploadCoords (tc : UVec2) : List UVec2 :=
  (List.range tc.x).flatMap (fun x => (List.range tc.y).map (fun y => ⟨x, y⟩))

/-- The `target_tiles` collection loop of `upload_image`: `get_tile_mut`
on every coordinate in order, threading the storage state. -/
def allocTiles (s : GpuTileStorage) (layer : LayerId) :
    List UVec2 → Option (List Tile × GpuTileStorage)
  | [] => some ([], s)
  | c :: rest =>
    match get_tile_mut s layer c with
    | none => none
    | some (t, s1) =>
      match allocTiles s1 layer rest with
      | none => none
      | some (ts, s2) => some (t :: ts, s2)

/-- `GpuTileStorage::upload_image`: split the `w × h` image into tile
chunks, `get_tile_mut` each, and record one copy command per chunk; the
returned list is the single command batch submitted once at the end. -/
def upload_image (s : GpuTileStorage) (layer_id : LayerId) (w h : Nat)
    (img : Nat → Nat → Nat) : Option (GpuTileStorage × List CopyCmd) :=
  let tc := calc_tile_count ⟨w, h⟩
  match allocTiles s layer_id (uploadCoords tc) with
  | none => none
  | some (ts, s1) => some (s1, ts.map (chunkCmd w h img))

/-- GPU-resident pixel data: slot `(pile, layer)` and in-tile pixel
coordinate to texel value. -/
def GpuData := (Nat × Nat) → (Nat × Nat) → Nat

/-- Effect of one recorded copy: texels of the destination slot inside the
copy extent take the staged data; every other texel keeps its value. -/
def applyCopy (g : GpuData) (c : CopyCmd) : GpuData := fun slot p =>
  if slot = (c.dstPile, c.dstLayer) ∧ p.1 < c.width ∧ p.2 < c.height then
    c.src p.1 p.2
  else g slot p

/-- Effect of submitting a recorded batch: the copies apply in order. -/
def applyBatch (g : GpuData) (cs : List CopyCmd) : GpuData := cs.foldl applyCopy g

/-- u32 addition with the overflow made explicit. -/
def u32add (a b : Nat) : Option Nat := if a + b ≤ U32_MAX then some (a + b) else none

/-- u32 subtraction with the underflow made explicit. -/
def u32sub (a b : Nat) : Option Nat := if b ≤ a then some (a - b) else none

/-- `iced_core::Rectangle<u32>`. -/
structure URect where
  x : Nat
  y : Nat
  width : Nat
  height : Nat
deriving DecidableEq, Repr

/-- The tile-coordinate range computed at the top of `get_tile_views`:
`min = pixel_min / TILE_SIZE`,
`max = min(div_ceil(pixel_max, TILE_SIZE), total_tile_count − 1)`;
`none` models the u32 overflow in `pixel_min + extent` and the u32
underflow in `total_tile_count − 1`. -/
def tileRange (rect : URect) (total_tile_count : UVec2) : Option (UVec2 × UVec2) :=
  match u32add rect.x rect.width, u32add rect.y rect.height,
      u32sub total_tile_count.x 1, u32sub total_tile_count.y 1 with
  | some pmx, some pmy, some tx, some ty =>
    some (⟨rect.x / TILE_SIZE, rect.y / TILE_SIZE⟩,
      ⟨min ((pmx + TILE_SIZE - 1) / TILE_SIZE) tx,
       min ((pmy + TILE_SIZE - 1) / TILE_SIZE) ty⟩)
  | _, _, _, _ => none

/-- An inclusive u32 range `a..=b` as a list (empty when `a > b`). -/
def rangeIncl (a b : Nat) : List Nat := List.range' a (b + 1 - a)

/-- The coordinate enumeration of `get_tile_views`: `x` outer, `y` inner
over the inclusive ranges. -/
def viewCoords (mn mx : UVec2) : List UVec2 :=
  (rangeIncl mn.x mx.x).flatMap (fun x => (rangeIncl mn.y mx.y).map (fun y => ⟨x, y⟩))

/-- `get_tile` on each coordinate in order (read-only). -/
def getTiles (s : GpuTileStorage) (layer : LayerId) : List UVec2 → Option (List Tile)
  | [] => some []
  | c :: cs =>
    match get_tile s layer c, getTiles s layer cs with
    | some t, some ts => some (t :: ts)
    | _, _ => none

/-- The `HashMap`-building fold of `get_tile_views`: append the tile id to
its pile's group, creating the group on first sight. The `HashMap`
iteration order is unspecified in the source; the model fixes
first-encounter order, which is one of the admissible orders. -/
def addToGroups (acc : List (Nat × List TileId)) (t : TileId) : List (Nat × List TileId) :=
  match acc with
  | [] => [(t.pile_index, [t])]
  | g :: rest =>
    if g.1 = t.pile_index then (g.1, g.2 ++ [t]) :: rest
    else g :: addToGroups rest t

/-- `GroupedTileViews`: the pile handle (its index stands for the bound
`texture_view`) and the tile ids resolved to it. -/
structure GroupedTileViews where
  pile : Nat
  tiles : List TileId
deriving DecidableEq, Repr

/-- `GpuTileStorage::get_tile_views`: derive the tile range from the pixel
rectangle, resolve every coordinate with `get_tile`, group by pile index,
and attach each group's pile handle (`none` models the arithmetic panics
and the `piles[pile_index]` indexing panic). -/
def get_tile_views (s : GpuTileStorage) (pixel_rect : URect) (total_tile_count : UVec2)
    (image_layer : LayerId) : Option (List GroupedTileViews) :=
  match tileRange pixel_rect total_tile_count with
  | none => none
  | some (mn, mx) =>
    match getTiles s image_layer (viewCoords mn mx) with
    | none => none
    | some ts =>
      let groups := ts.foldl (fun acc t => addToGroups acc t.id) []
      if groups.all (fun g => g.1 < s.piles.length) then
        some (groups.map (fun g => { pile := g.1, tiles := g.2 }))
      else none

/-- The mapper-buffer construction of `CanvasRenderPipeline::draw`
(render.rs): a dense `grid_width × grid_height` array filled with
`u32::MAX`, then `mapper[index.y * grid_width + index.x] = pile_layer` for
each tile of the group. (An out-of-bounds index, which would panic in the
source, leaves the list unchanged here; the claims about this code supply
in-bounds coordinates.) -/
def buildMapper (total_tile_count : UVec2) (tiles : List TileId) : List Nat :=
  tiles.foldl
    (fun m t => m.set (t.index.y * total_tile_count.x + t.index.x) t.pile_layer)
    (List.replicate (total_tile_count.x * total_tile_count.y) U32_MAX)

/-- The storage-mutating interface: read lookups, get-or-allocate lookups,
image uploads. -/
inductive Op where
  | opGetTile (l : LayerId) (i : UVec2)
  | opGetTileMut (l : LayerId) (i : UVec2)
  | opUpload (l : LayerId) (w h : Nat) (img : Nat → Nat → Nat)

/-- Effect of one operation on the storage. `get_tile` takes `&self` and
returns the state unchanged. -/
def applyOp (s : GpuTileStorage) : Op → Option GpuTileStorage
  | .opGetTile l i => (get_tile s l i).map (fun _ => s)
  | .opGetTileMut l i => (get_tile_mut s l i).map Prod.snd
  | .opUpload l w h img => (upload_image s l w h img).map Prod.fst

/-- Effect of a sequence of operations. -/
def applyOps (s : GpuTileStorage) : List Op → Option GpuTileStorage
  | [] => some s
  | op :: ops =>
    match applyOp s op with
    | none => none
    | some s1 => applyOps s1 ops

/-- States reachable from `GpuTileStorage::new` by the public interface. -/
def Reachable (s : GpuTileStorage) : Prop :=
  ∃ ops, applyOps GpuTileStorage.new ops = some s

/-- The physical slot of a tile: `(pile_index, pile_layer)`. -/
def slotOf (t : Tile) : Nat × Nat := (t.id.pile_index, t.id.pile_layer)

/-- A slot address that exists: its pile index is a valid index into the
pile list and its layer index is below that pile's layer capacity. -/
def InRange (piles : List GpuTilePile) (sl : Nat × Nat) : Prop :=
  sl.1 < piles.length ∧ sl.2 < (piles.getD sl.1 { capacity := 0 }).capacity

instance (piles : List GpuTilePile) (sl : Nat × Nat) : Decidable (InRange piles sl) :=
  inferInstanceAs (Decidable (And _ _))

/-- A slot is occupied in an entry list when some stored tile resolves
to it. -/
def OccupiedIn (entries : List (TileKey × Tile)) (sl : Nat × Nat) : Prop :=
  ∃ e ∈ entries, slotOf e.2 = sl

instance (entries : List (TileKey × Tile)) (sl : Nat × Nat) :
    Decidable (OccupiedIn entries sl) :=
  List.decidableBEx _ entries

/-- Well-formedness of one tile-index entry: the stored id repeats the key,
the slot exists, the sentinel entry is exactly the empty tile, and every
other entry's view is the view over its own slot in a pile of index ≥ 1. -/
def WfEntry (piles : List GpuTilePile) (e : TileKey × Tile) : Prop :=
  e.2.id.image_layer = e.1.1 ∧
  e.2.id.index = e.1.2 ∧
  InRange piles (slotOf e.2) ∧
  (e.1 = sentinelKey → e.2 = emptyTile) ∧
  (e.1 ≠ sentinelKey →
    e.2.view = TexView.pileView e.2.id.pile_index e.2.id.pile_layer ∧ 1 ≤ e.2.id.pile_index)

instance (piles : List GpuTilePile) (e : TileKey × Tile) : Decidable (WfEntry piles e) := by
  unfold WfEntry
  infer_instance

/-- The storage invariant: the sentinel entry is present and intact, keys
are unique, distinct entries sit in distinct slots, entries are
well-formed, the free-slot list has no duplicates and holds only existing
slots of piles ≥ 1, and every existing slot is occupied exactly when it is
not free. -/
def Inv (s : GpuTileStorage) : Prop :=
  findTile sentinelKey s.tiles = some emptyTile ∧
  (s.tiles.map Prod.fst).Nodup ∧
  (∀ e1 ∈ s.tiles, ∀ e2 ∈ s.tiles, slotOf e1.2 = slotOf e2.2 → e1 = e2) ∧
  (∀ e ∈ s.tiles, WfEntry s.piles e) ∧
  s.available_slices.Nodup ∧
  (∀ sl ∈ s.available_slices, InRange s.piles sl ∧ 1 ≤ sl.1) ∧
  (∀ p, p < s.piles.length → ∀ l, l < (s.piles.getD p { capacity := 0 }).capacity →
    (OccupiedIn s.tiles (p, l) ↔ (p, l) ∉ s.available_slices))

instance (s : GpuTileStorage) : Decidable (Inv s) := by
  unfold Inv
  infer_instance

/-- The tile `get_tile_mut` constructs over a freshly popped slot. -/
def mkTile (l : LayerId) (i : UVec2) (sl : Nat × Nat) : Tile :=
  { id := { image_layer := l, index := i, pile_index := sl.1, pile_layer := sl.2 }
    view := TexView.pileView sl.1 sl.2 }

/-- One allocation's effect on `(free-slot count, pile count)`: refill a
fresh pile when the free list is empty, then consume one slot. -/
def stepCount (z : Nat × Nat) : Nat × Nat :=
  if z.1 = 0 then (TILES_PER_PILE - 1, z.2 + 1) else (z.1 - 1, z.2)

/-- `stepCount` iterated over a number of allocations. -/
def iterCount : Nat → Nat × Nat → Nat × Nat
  | 0, z => z
  | n + 1, z => iterCount n (stepCount z)

/-! Helper lemmas about the association-list index. -/

theorem findTile_eq_none_iff {k : TileKey} {l : List (TileKey × Tile)} :
    findTile k l = none ↔ ∀ e ∈ l, e.1 ≠ k := by
  induction l with
  | nil => simp [findTile]
  | cons e rest ih =>
    by_cases h : e.1 = k
    · simp [findTile, h]
    · simp [findTile, h, ih]

theorem findTile_cons_self {k : TileKey} {t : Tile} {l : List (TileKey × Tile)} :
    findTile k ((k, t) :: l) = some t := by
  simp [findTile]

theorem findTile_cons_ne {k k2 : TileKey} {t : Tile} {l : List (TileKey × Tile)}
    (h : k2 ≠ k) : findTile k ((k2, t) :: l) = findTile k l := by
  simp [findTile, h]

theorem findTile_some_mem {k : TileKey} {t : Tile} {l : List (TileKey × Tile)}
    (h : findTile k l = some t) : (k, t) ∈ l := by
  induction l with
  | nil => simp [findTile] at h
  | cons e rest ih =>
    obtain ⟨k1, t1⟩ := e
    by_cases he : k1 = k
    · subst he
      rw [findTile_cons_self] at h
      cases h
      exact List.mem_cons_self _ _
    · rw [findTile_cons_ne he] at h
      exact List.mem_cons_of_mem _ (ih h)

theorem findTile_mem_of_nodup {e : TileKey × Tile} {l : List (TileKey × Tile)}
    (hn : (l.map Prod.fst).Nodup) (he : e ∈ l) : findTile e.1 l = some e.2 := by
  induction l with
  | nil => simp at he
  | cons e0 rest ih =>
    obtain ⟨k0, t0⟩ := e0
    have hn2 : (∀ x : Tile, (k0, x) ∉ rest) ∧ (rest.map Prod.fst).Nodup := by
      simpa using hn
    rcases List.mem_cons.mp he with h1 | h1
    · subst h1
      exact findTile_cons_self
    · have hne : k0 ≠ e.1 := by
        intro hc
        have hmem : (k0, e.2) ∈ rest := by
          have : (k0, e.2) = e := by
            rw [hc]
          rw [this]
          exact h1
        exact hn2.1 e.2 hmem
      rw [findTile_cons_ne hne]
      exact ih hn2.2 h1

/-! Characterization of `get_tile`. -/

theorem get_tile_hit {s : GpuTileStorage} {l : LayerId} {i : UVec2} {t : Tile}
    (h : findTile (l, i) s.tiles = some t) : get_tile s l i = some t := by
  simp [get_tile, h]

theorem get_tile_miss {s : GpuTileStorage} {l : LayerId} {i : UVec2}
    (h : findTile (l, i) s.tiles = none)
    (hs : findTile sentinelKey s.tiles = some emptyTile) :
    get_tile s l i =
      some { id := { image_layer := 0, index := i, pile_index := 0, pile_layer := 0 },
             view := TexView.emptyTile } := by
  simp [get_tile, h, hs, emptyTile, EMPTY_TILE_ID]

/-! Characterization of `try_allocate_new_tile_pile` and `get_tile_mut`. -/

theorem try_alloc_of_ne {s : GpuTileStorage} (h : s.available_slices ≠ []) :
    try_allocate_new_tile_pile s = s := by
  simp [try_allocate_new_tile_pile, h]

theorem try_alloc_of_empty {s : GpuTileStorage} (h : s.available_slices = []) :
    try_allocate_new_tile_pile s =
      { s with
        piles := s.piles ++ [{ capacity := TILES_PER_PILE }]
        available_slices :=
          (List.range TILES_PER_PILE).map (fun x => (s.piles.length, x)) } := by
  simp [try_allocate_new_tile_pile, h]

theorem gtm_occupied {s : GpuTileStorage} {l : LayerId} {i : UVec2} {t : Tile}
    (h : findTile (l, i) s.tiles = some t) : get_tile_mut s l i = some (t, s) := by
  simp [get_tile_mut, h]

theorem range_getLast? : (List.range TILES_PER_PILE).getLast? = some (TILES_PER_PILE - 1) := by
  rw [show TILES_PER_PILE = 255 + 1 from rfl, List.range_succ]
  simp

theorem range_dropLast :
    (List.range TILES_PER_PILE).dropLast = List.range (TILES_PER_PILE - 1) := by
  rw [show TILES_PER_PILE = 255 + 1 from rfl, List.range_succ]
  simp

theorem gtm_vacant_nonempty {s : GpuTileStorage} {l : LayerId} {i : UVec2} {sl : Nat × Nat}
    (hv : findTile (l, i) s.tiles = none)
    (hlast : s.available_slices.getLast? = some sl)
    (hp : sl.1 < s.piles.length) :
    get_tile_mut s l i = some (mkTile l i sl,
      { s with
        tiles := ((l, i), mkTile l i sl) :: s.tiles
        available_slices := s.available_slices.dropLast }) := by
  have hne : s.available_slices ≠ [] := by
    intro h
    rw [h] at hlast
    simp at hlast
  obtain ⟨p, q⟩ := sl
  simp only [get_tile_mut, hv, try_alloc_of_ne hne, hlast]
  simp [hp, mkTile]

theorem gtm_vacant_empty {s : GpuTileStorage} {l : LayerId} {i : UVec2}
    (hv : findTile (l, i) s.tiles = none)
    (he : s.available_slices = []) :
    get_tile_mut s l i = some (mkTile l i (s.piles.length, TILES_PER_PILE - 1),
      { piles := s.piles ++ [{ capacity := TILES_PER_PILE }]
        tiles := ((l, i), mkTile l i (s.piles.length, TILES_PER_PILE - 1)) :: s.tiles
        available_slices :=
          (List.range (TILES_PER_PILE - 1)).map (fun x => (s.piles.length, x)) }) := by
  simp only [get_tile_mut, hv, try_alloc_of_empty he]
  rw [List.getLast?_map, range_getLast?]
  simp only [Option.map_some']
  have hlen : s.piles.length < (s.piles ++ [({ capacity := TILES_PER_PILE } : GpuTilePile)]).length := by
    simp
  simp [hlen, mkTile, ← List.map_dropLast, range_dropLast]

/-! Invariant preservation. -/

theorem mem_dropLast_iff {α : Type} {l : List α} {a x : α}
    (hn : l.Nodup) (h : l.getLast? = some a) : x ∈ l.dropLast ↔ x ∈ l ∧ x ≠ a := by
  have hne : l ≠ [] := by
    intro hcontra
    rw [hcontra] at h
    simp at h
  have hdec := List.dropLast_append_getLast hne
  have ha : l.getLast hne = a := by
    have := List.getLast?_eq_getLast l hne
    rw [this] at h
    exact Option.some.inj h
  constructor
  · intro hx
    refine ⟨List.mem_of_mem_dropLast hx, ?_⟩
    intro hxa
    have hn2 := hn
    rw [← hdec] at hn2
    obtain ⟨-, -, hdisj⟩ := List.nodup_append.mp hn2
    exact hdisj hx (by simp [ha, hxa])
  · rintro ⟨hx, hxa⟩
    rw [← hdec] at hx
    rcases List.mem_append.mp hx with h1 | h1
    · exact h1
    · simp [ha] at h1
      exact absurd h1 hxa

theorem getD_append_lt {l1 l2 : List GpuTilePile} {n : Nat} (h : n < l1.length)
    (d : GpuTilePile) : (l1 ++ l2).getD n d = l1.getD n d := by
  simp [List.getD_eq_getElem?_getD, List.getElem?_append, h]

theorem getD_append_self {l1 : List GpuTilePile} {P : GpuTilePile} (d : GpuTilePile) :
    (l1 ++ [P]).getD l1.length d = P := by
  simp [List.getD_eq_getElem?_getD, List.getElem?_append_right (Nat.le_refl l1.length)]

theorem InRange_mono {l1 l2 : List GpuTilePile} {sl : Nat × Nat}
    (h : InRange l1 sl) : InRange (l1 ++ l2) sl := by
  obtain ⟨h1, h2⟩ := h
  refine ⟨by simp; omega, ?_⟩
  rw [getD_append_lt h1]
  exact h2

theorem occupiedIn_cons {e : TileKey × Tile} {l : List (TileKey × Tile)} {sl : Nat × Nat} :
    OccupiedIn (e :: l) sl ↔ slotOf e.2 = sl ∨ OccupiedIn l sl := by
  simp [OccupiedIn]

theorem key_ne_sentinel {s : GpuTileStorage} {l : LayerId} {i : UVec2}
    (hsent : findTile sentinelKey s.tiles = some emptyTile)
    (hv : findTile (l, i) s.tiles = none) : (l, i) ≠ sentinelKey := by
  intro h
  rw [h, hsent] at hv
  exact Option.noConfusion hv

theorem key_not_mem {s : GpuTileStorage} {l : LayerId} {i : UVec2}
    (hv : findTile (l, i) s.tiles = none) : (l, i) ∉ s.tiles.map Prod.fst := by
  intro hmem
  obtain ⟨e, he, hfst⟩ := List.mem_map.mp hmem
  exact (findTile_eq_none_iff.mp hv e he) hfst

theorem inv_after_pop {s : GpuTileStorage} {l : LayerId} {i : UVec2} {sl : Nat × Nat}
    (hInv : Inv s) (hv : findTile (l, i) s.tiles = none)
    (hlast : s.available_slices.getLast? = some sl) :
    Inv { s with
          tiles := ((l, i), mkTile l i sl) :: s.tiles
          available_slices := s.available_slices.dropLast } := by
  obtain ⟨hsent, hnodup, hinj, hwf, havn, havr, hpart⟩ := hInv
  have hslmem : sl ∈ s.available_slices := by
    have hne : s.available_slices ≠ [] := by
      intro hcontra
      rw [hcontra] at hlast
      simp at hlast
    have := List.getLast?_eq_getLast s.available_slices hne
    rw [this] at hlast
    rw [← Option.some.inj hlast]
    exact List.getLast_mem hne
  have hslr := havr sl hslmem
  have hnotocc : ¬ OccupiedIn s.tiles sl := by
    intro hocc
    exact (hpart sl.1 hslr.1.1 sl.2 hslr.1.2 |>.mp (by
      obtain ⟨p, q⟩ := sl
      exact hocc)) hslmem
  have hkne := key_ne_sentinel hsent hv
  refine ⟨?_, ?_, ?_, ?_, ?_, ?_, ?_⟩
  · rw [show ({ s with
          tiles := ((l, i), mkTile l i sl) :: s.tiles
          available_slices := s.available_slices.dropLast } : GpuTileStorage).tiles
        = ((l, i), mkTile l i sl) :: s.tiles from rfl, findTile_cons_ne hkne]
    exact hsent
  · simp only []
    rw [List.map_cons]
    exact List.nodup_cons.mpr ⟨key_not_mem hv, hnodup⟩
  · intro e1 he1 e2 he2 hslot
    simp only [List.mem_cons] at he1 he2
    rcases he1 with he1 | he1 <;> rcases he2 with he2 | he2
    · rw [he1, he2]
    · exfalso
      apply hnotocc
      subst he1
      exact ⟨e2, he2, by rw [← hslot]; rfl⟩
    · exfalso
      apply hnotocc
      subst he2
      exact ⟨e1, he1, by rw [hslot]; rfl⟩
    · exact hinj e1 he1 e2 he2 hslot
  · intro e he
    simp only [List.mem_cons] at he
    rcases he with he | he
    · subst he
      refine ⟨rfl, rfl, ?_, ?_, ?_⟩
      · exact hslr.1
      · intro hcontra
        exact absurd hcontra hkne
      · intro _
        exact ⟨rfl, hslr.2⟩
    · exact hwf e he
  · exact havn.sublist (List.dropLast_sublist _)
  · intro sl2 hsl2
    exact havr sl2 (List.mem_of_mem_dropLast hsl2)
  · intro p hp l2 hl2
    simp only [] at hp hl2 ⊢
    rw [occupiedIn_cons, mem_dropLast_iff havn hlast]
    have hbase := hpart p hp l2 hl2
    by_cases hz : (p, l2) = sl
    · constructor
      · intro _ hcontra
        exact hcontra.2 hz
      · intro _
        left
        rw [hz]
        rfl
    · constructor
      · rintro (h | h)
        · exact absurd (by rw [← h]; rfl) hz
        · intro hcontra
          exact (hbase.mp h) hcontra.1
      · intro hcontra
        right
        apply hbase.mpr
        intro hmem
        exact hcontra ⟨hmem, hz⟩

theorem inv_after_refill {s : GpuTileStorage} {l : LayerId} {i : UVec2}
    (hInv : Inv s) (hv : findTile (l, i) s.tiles = none)
    (he : s.available_slices = []) :
    Inv { piles := s.piles ++ [{ capacity := TILES_PER_PILE }]
          tiles := ((l, i), mkTile l i (s.piles.length, TILES_PER_PILE - 1)) :: s.tiles
          available_slices :=
            (List.range (TILES_PER_PILE - 1)).map (fun x => (s.piles.length, x)) } := by
  obtain ⟨hsent, hnodup, hinj, hwf, havn, havr, hpart⟩ := hInv
  have hkne := key_ne_sentinel hsent hv
  have hlen1 : 1 ≤ s.piles.length := by
    have := (hwf _ (findTile_some_mem hsent)).2.2.1
    exact this.1
  have hoccall : ∀ z : Nat × Nat, z.1 < s.piles.length →
      z.2 < (s.piles.getD z.1 { capacity := 0 }).capacity → OccupiedIn s.tiles z := by
    intro z h1 h2
    obtain ⟨p, q⟩ := z
    apply (hpart p h1 q h2).mpr
    rw [he]
    simp
  have hslotlt : ∀ e ∈ s.tiles, (slotOf e.2).1 < s.piles.length := by
    intro e hee
    exact (hwf e hee).2.2.1.1
  refine ⟨?_, ?_, ?_, ?_, ?_, ?_, ?_⟩
  · have hgoal : findTile sentinelKey
        (((l, i), mkTile l i (s.piles.length, TILES_PER_PILE - 1)) :: s.tiles)
        = some emptyTile := by
      rw [findTile_cons_ne hkne]
      exact hsent
    exact hgoal
  · simp only []
    rw [List.map_cons]
    exact List.nodup_cons.mpr ⟨key_not_mem hv, hnodup⟩
  · intro e1 he1 e2 he2 hslot
    simp only [List.mem_cons] at he1 he2
    rcases he1 with he1 | he1 <;> rcases he2 with he2 | he2
    · rw [he1, he2]
    · exfalso
      subst he1
      have := hslotlt e2 he2
      rw [← hslot] at this
      simp [slotOf, mkTile] at this
    · exfalso
      subst he2
      have := hslotlt e1 he1
      rw [hslot] at this
      simp [slotOf, mkTile] at this
    · exact hinj e1 he1 e2 he2 hslot
  · intro e he
    simp only [List.mem_cons] at he
    rcases he with he | he
    · subst he
      refine ⟨rfl, rfl, ?_, ?_, ?_⟩
      · refine ⟨by simp [slotOf, mkTile], ?_⟩
        rw [show (slotOf (mkTile l i (s.piles.length, TILES_PER_PILE - 1))).1
              = s.piles.length from rfl, getD_append_self]
        simp [slotOf, mkTile, TILES_PER_PILE]
      · intro hcontra
        exact absurd hcontra hkne
      · intro _
        exact ⟨rfl, hlen1⟩
    · have hw := hwf e he
      exact ⟨hw.1, hw.2.1, InRange_mono hw.2.2.1, hw.2.2.2⟩
  · simp only []
    refine List.Nodup.map ?_ (List.nodup_range _)
    intro a b hab
    simpa using hab
  · intro sl2 hsl2
    simp only [List.mem_map] at hsl2
    obtain ⟨x, hx, hsl2⟩ := hsl2
    subst hsl2
    have hx2 : x < TILES_PER_PILE - 1 := List.mem_range.mp hx
    refine ⟨⟨by simp, ?_⟩, hlen1⟩
    rw [show ((s.piles.length, x) : Nat × Nat).1 = s.piles.length from rfl, getD_append_self]
    simp only [TILES_PER_PILE] at hx2 ⊢
    omega
  · intro p hp l2 hl2
    simp only [List.length_append, List.length_cons] at hp
    rw [occupiedIn_cons]
    by_cases hple : p < s.piles.length
    · have hcapeq : ((s.piles ++ [({ capacity := TILES_PER_PILE } : GpuTilePile)]).getD p
          ({ capacity := 0 } : GpuTilePile)).capacity
          = (s.piles.getD p ({ capacity := 0 } : GpuTilePile)).capacity := by
        rw [getD_append_lt hple]
      simp only [] at hl2
      rw [hcapeq] at hl2
      constructor
      · intro _
        intro hcontra
        simp only [List.mem_map] at hcontra
        obtain ⟨x, -, hx⟩ := hcontra
        have : s.piles.length = p := congrArg Prod.fst hx
        omega
      · intro _
        right
        exact hoccall (p, l2) hple hl2
    · have hpeq : p = s.piles.length := by
        simp at hp
        omega
      subst hpeq
      simp only [] at hl2
      rw [getD_append_self] at hl2
      have hnotold : ¬ OccupiedIn s.tiles (s.piles.length, l2) := by
        rintro ⟨e, hee, hsl⟩
        have := hslotlt e hee
        rw [hsl] at this
        simp at this
      constructor
      · rintro (h | h)
        · simp only [slotOf, mkTile] at h
          have hl2eq : l2 = TILES_PER_PILE - 1 := by
            have := congrArg Prod.snd h
            simpa using this.symm
          intro hcontra
          simp only [List.mem_map] at hcontra
          obtain ⟨x, hx, hxeq⟩ := hcontra
          have : x = l2 := by
            have := congrArg Prod.snd hxeq
            simpa using this
          subst this
          have := List.mem_range.mp hx
          omega
        · exact absurd h hnotold
      · intro hcontra
        left
        simp only [slotOf, mkTile]
        have hl2eq : l2 = TILES_PER_PILE - 1 := by
          by_contra hne2
          apply hcontra
          simp only [List.mem_map]
          refine ⟨l2, List.mem_range.mpr ?_, rfl⟩
          simp only [TILES_PER_PILE] at hl2 hne2 ⊢
          omega
        rw [hl2eq]

/-- Total correctness of one `get_tile_mut` call from an invariant state:
it succeeds, preserves the invariant and every existing entry, and leaves
the requested key bound to a tile whose id repeats the key. -/
theorem gtm_spec {s : GpuTileStorage} (hInv : Inv s) (l : LayerId) (i : UVec2) :
    ∃ t s2, get_tile_mut s l i = some (t, s2) ∧ Inv s2 ∧
      findTile (l, i) s2.tiles = some t ∧
      t.id.image_layer = l ∧ t.id.index = i ∧
      (∀ k t0, findTile k s.tiles = some t0 → findTile k s2.tiles = some t0) := by
  cases hocc : findTile (l, i) s.tiles with
  | some t =>
    refine ⟨t, s, gtm_occupied hocc, hInv, hocc, ?_, ?_, fun k t0 h => h⟩
    · exact (hInv.2.2.2.1 _ (findTile_some_mem hocc)).1
    · exact (hInv.2.2.2.1 _ (findTile_some_mem hocc)).2.1
  | none =>
    have hpres : ∀ (tn : Tile) (k : TileKey) (t0 : Tile), findTile k s.tiles = some t0 →
        findTile k (((l, i), tn) :: s.tiles) = some t0 := by
      intro tn k t0 h0
      have hkne : k ≠ (l, i) := by
        intro hc
        rw [hc, hocc] at h0
        exact Option.noConfusion h0
      rw [show ((l, i), tn) = (((l, i) : TileKey), tn) from rfl,
        findTile_cons_ne (fun hc => hkne hc.symm)]
      exact h0
    cases hav : s.available_slices with
    | nil =>
      refine ⟨_, _, gtm_vacant_empty hocc hav, inv_after_refill hInv hocc hav, ?_, rfl, rfl, ?_⟩
      · exact findTile_cons_self
      · intro k t0 h0
        exact hpres _ k t0 h0
    | cons a rest =>
      have hne : s.available_slices ≠ [] := by
        rw [hav]
        exact List.cons_ne_nil a rest
      obtain ⟨sl, hlast⟩ : ∃ sl, s.available_slices.getLast? = some sl :=
        ⟨s.available_slices.getLast hne, List.getLast?_eq_getLast _ hne⟩
      have hslmem : sl ∈ s.available_slices := by
        have := List.getLast?_eq_getLast s.available_slices hne
        rw [this] at hlast
        rw [← Option.some.inj hlast]
        exact List.getLast_mem hne
      have hp : sl.1 < s.piles.length := (hInv.2.2.2.2.2.1 sl hslmem).1.1
      refine ⟨_, _, gtm_vacant_nonempty hocc hlast hp, inv_after_pop hInv hocc hlast, ?_,
        rfl, rfl, ?_⟩
      · exact findTile_cons_self
      · intro k t0 h0
        exact hpres _ k t0 h0

/-- `GpuTileStorage::new` satisfies the invariant. -/
theorem inv_new : Inv GpuTileStorage.new := by
  decide

/-- `allocTiles` from an invariant state succeeds, preserves the invariant
and existing entries, returns tiles whose ids repeat the requested keys,
and binds every requested coordinate in the final index. -/
theorem allocTiles_spec {s : GpuTileStorage} (hInv : Inv s) (layer : LayerId)
    (coords : List UVec2) :
    ∃ ts s2, allocTiles s layer coords = some (ts, s2) ∧ Inv s2 ∧
      (∀ k t0, findTile k s.tiles = some t0 → findTile k s2.tiles = some t0) ∧
      List.Forall₂ (fun c t => findTile (layer, c) s2.tiles = some t ∧
        t.id.image_layer = layer ∧ t.id.index = c) coords ts := by
  induction coords generalizing s with
  | nil => exact ⟨[], s, rfl, hInv, fun k t0 h => h, List.Forall₂.nil⟩
  | cons c rest ih =>
    obtain ⟨t, s1, hstep, hInv1, hfind1, hlay, hidx, hpres1⟩ := gtm_spec hInv layer c
    obtain ⟨ts, s2, hrest, hInv2, hpres2, hrel⟩ := ih hInv1
    refine ⟨t :: ts, s2, ?_, hInv2, ?_, ?_⟩
    · simp [allocTiles, hstep, hrest]
    · intro k t0 h0
      exact hpres2 k t0 (hpres1 k t0 h0)
    · exact List.Forall₂.cons ⟨hpres2 _ _ hfind1, hlay, hidx⟩ hrel

/-- `upload_image` from an invariant state succeeds and preserves the
invariant and all existing entries; the recorded batch is the per-tile
chunk commands in enumeration order. -/
theorem upload_image_spec {s : GpuTileStorage} (hInv : Inv s) (layer : LayerId)
    (w h : Nat) (img : Nat → Nat → Nat) :
    ∃ s2 cmds, upload_image s layer w h img = some (s2, cmds) ∧ Inv s2 ∧
      (∀ k t0, findTile k s.tiles = some t0 → findTile k s2.tiles = some t0) ∧
      ∃ ts, allocTiles s layer (uploadCoords (calc_tile_count ⟨w, h⟩)) = some (ts, s2) ∧
        cmds = ts.map (chunkCmd w h img) ∧
        List.Forall₂ (fun c t => findTile (layer, c) s2.tiles = some t ∧
          t.id.image_layer = layer ∧ t.id.index = c)
          (uploadCoords (calc_tile_count ⟨w, h⟩)) ts := by
  obtain ⟨ts, s2, halloc, hInv2, hpres, hrel⟩ :=
    allocTiles_spec hInv layer (uploadCoords (calc_tile_count ⟨w, h⟩))
  exact ⟨s2, ts.map (chunkCmd w h img), by simp [upload_image, halloc], hInv2, hpres,
    ts, halloc, rfl, hrel⟩

/-- Every operation of the interface preserves the invariant. -/
theorem inv_applyOp {s s2 : GpuTileStorage} {op : Op} (hInv : Inv s)
    (h : applyOp s op = some s2) : Inv s2 := by
  cases op with
  | opGetTile l i =>
    simp only [applyOp] at h
    cases hg : get_tile s l i with
    | none => rw [hg] at h; exact Option.noConfusion h
    | some t =>
      rw [hg] at h
      simp at h
      rw [← h]
      exact hInv
  | opGetTileMut l i =>
    obtain ⟨t, s2g, hstep, hInv2, -⟩ := gtm_spec hInv l i
    simp only [applyOp, hstep] at h
    simp at h
    rw [← h]
    exact hInv2
  | opUpload l w hh img =>
    obtain ⟨s2u, cmds, hstep, hInv2, -⟩ := upload_image_spec hInv l w hh img
    simp only [applyOp, hstep] at h
    simp at h
    rw [← h]
    exact hInv2

/-- Every reachable state satisfies the invariant. -/
theorem inv_reachable {s : GpuTileStorage} (h : Reachable s) : Inv s := by
  obtain ⟨ops, hops⟩ := h
  have hgen : ∀ (ops : List Op) (s0 s1 : GpuTileStorage), Inv s0 →
      applyOps s0 ops = some s1 → Inv s1 := by
    intro ops
    induction ops with
    | nil =>
      intro s0 s1 h0 h1
      simp [applyOps] at h1
      rw [← h1]
      exact h0
    | cons op rest ih =>
      intro s0 s1 h0 h1
      simp only [applyOps] at h1
      cases hstep : applyOp s0 op with
      | none => rw [hstep] at h1; exact Option.noConfusion h1
      | some smid =>
        rw [hstep] at h1
        exact ih smid s1 (inv_applyOp h0 hstep) h1
  exact hgen ops GpuTileStorage.new s inv_new hops

/-- Allocation on fresh distinct keys succeeds and drives the free-slot
and pile counts exactly as `iterCount`: a refill of `TILES_PER_PILE` slots
and one new pile when the free list is empty, otherwise one pop. -/
theorem alloc_counts {s : GpuTileStorage} (hInv : Inv s) (ks : List TileKey)
    (hnd : ks.Nodup) (hfresh : ∀ k ∈ ks, findTile k s.tiles = none) :
    ∃ s2, applyOps s (ks.map (fun k => Op.opGetTileMut k.1 k.2)) = some s2 ∧ Inv s2 ∧
      (s2.available_slices.length, s2.piles.length)
        = iterCount ks.length (s.available_slices.length, s.piles.length) := by
  induction ks generalizing s with
  | nil => exact ⟨s, rfl, hInv, rfl⟩
  | cons k rest ih =>
    have hkfresh : findTile (k.1, k.2) s.tiles = none := hfresh k (List.mem_cons_self _ _)
    cases hav : s.available_slices with
    | nil =>
      have hstep := gtm_vacant_empty hkfresh hav
      have hInv1 := inv_after_refill hInv hkfresh hav
      have hfresh1 : ∀ k2 ∈ rest,
          findTile k2 (((k.1, k.2), mkTile k.1 k.2 (s.piles.length, TILES_PER_PILE - 1))
            :: s.tiles) = none := by
        intro k2 hk2
        have hne : (k.1, k.2) ≠ k2 := by
          intro hc
          have : k = k2 := by
            rw [← hc]
          rw [this] at hnd
          exact (List.nodup_cons.mp hnd).1 hk2
        rw [findTile_cons_ne hne]
        exact hfresh k2 (List.mem_cons_of_mem _ hk2)
      obtain ⟨s2, hs2, hInv2, hcount⟩ := ih hInv1 (List.nodup_cons.mp hnd).2 hfresh1
      refine ⟨s2, ?_, hInv2, ?_⟩
      · simp only [List.map_cons, applyOps, applyOp, hstep, Option.map_some']
        exact hs2
      · rw [hcount]
        simp only [List.length_cons, List.length_nil, iterCount, stepCount]
        simp [TILES_PER_PILE, hav]
    | cons a arest =>
      have hne0 : s.available_slices ≠ [] := by
        rw [hav]
        exact List.cons_ne_nil a arest
      obtain ⟨sl, hlast⟩ : ∃ sl, s.available_slices.getLast? = some sl :=
        ⟨s.available_slices.getLast hne0, List.getLast?_eq_getLast _ hne0⟩
      have hslmem : sl ∈ s.available_slices := by
        have := List.getLast?_eq_getLast s.available_slices hne0
        rw [this] at hlast
        rw [← Option.some.inj hlast]
        exact List.getLast_mem hne0
      have hp : sl.1 < s.piles.length := (hInv.2.2.2.2.2.1 sl hslmem).1.1
      have hstep := gtm_vacant_nonempty hkfresh hlast hp
      have hInv1 := inv_after_pop hInv hkfresh hlast
      have hfresh1 : ∀ k2 ∈ rest,
          findTile k2 (((k.1, k.2), mkTile k.1 k.2 sl) :: s.tiles) = none := by
        intro k2 hk2
        have hne : (k.1, k.2) ≠ k2 := by
          intro hc
          have : k = k2 := by
            rw [← hc]
          rw [this] at hnd
          exact (List.nodup_cons.mp hnd).1 hk2
        rw [findTile_cons_ne hne]
        exact hfresh k2 (List.mem_cons_of_mem _ hk2)
      obtain ⟨s2, hs2, hInv2, hcount⟩ := ih hInv1 (List.nodup_cons.mp hnd).2 hfresh1
      refine ⟨s2, ?_, hInv2, ?_⟩
      · simp only [List.map_cons, applyOps, applyOp, hstep, Option.map_some']
        exact hs2
      · rw [hcount]
        simp only [List.length_cons, iterCount, stepCount, List.length_dropLast]
        rw [hav]
        simp

theorem forall2_mem_left {α β : Type} {R : α → β → Prop} {l1 : List α} {l2 : List β}
    (h : List.Forall₂ R l1 l2) {a : α} (ha : a ∈ l1) : ∃ b ∈ l2, R a b := by
  induction h with
  | nil => simp at ha
  | cons hr hrest ih =>
    rcases List.mem_cons.mp ha with h1 | h1
    · subst h1
      exact ⟨_, List.mem_cons_self _ _, hr⟩
    · obtain ⟨b, hb1, hb2⟩ := ih h1
      exact ⟨b, List.mem_cons_of_mem _ hb1, hb2⟩

theorem forall2_mem_right {α β : Type} {R : α → β → Prop} {l1 : List α} {l2 : List β}
    (h : List.Forall₂ R l1 l2) {b : β} (hb : b ∈ l2) : ∃ a ∈ l1, R a b := by
  induction h with
  | nil => simp at hb
  | cons hr hrest ih =>
    rcases List.mem_cons.mp hb with h1 | h1
    · subst h1
      exact ⟨_, List.mem_cons_self _ _, hr⟩
    · obtain ⟨a, ha1, ha2⟩ := ih h1
      exact ⟨a, List.mem_cons_of_mem _ ha1, ha2⟩

theorem mem_uploadCoords {tc c : UVec2} : c ∈ uploadCoords tc ↔ c.x < tc.x ∧ c.y < tc.y := by
  obtain ⟨cx, cy⟩ := c
  simp only [uploadCoords, List.mem_flatMap, List.mem_map, List.mem_range]
  constructor
  · rintro ⟨a, ha, b, hb, heq⟩
    cases heq
    exact ⟨ha, hb⟩
  · rintro ⟨h1, h2⟩
    exact ⟨cx, h1, cy, h2, rfl⟩

theorem uploadCoords_length (a b : Nat) : (uploadCoords ⟨a, b⟩).length = a * b := by
  induction a with
  | zero => simp [uploadCoords]
  | succ n ih =>
    have hsplit : uploadCoords ⟨n + 1, b⟩
        = uploadCoords ⟨n, b⟩ ++ (List.range b).map (fun y => (⟨n, y⟩ : UVec2)) := by
      simp [uploadCoords, List.range_succ]
    rw [hsplit]
    simp only [List.length_append, List.length_map, List.length_range, ih]
    rw [Nat.succ_mul]

theorem applyBatch_untouched {cmds : List CopyCmd} {g : GpuData} {sl p : Nat × Nat}
    (h : ∀ c ∈ cmds, sl = (c.dstPile, c.dstLayer) → ¬(p.1 < c.width ∧ p.2 < c.height)) :
    applyBatch g cmds sl p = g sl p := by
  induction cmds generalizing g with
  | nil => rfl
  | cons c rest ih =>
    rw [show applyBatch g (c :: rest) = applyBatch (applyCopy g c) rest from rfl]
    rw [ih (fun c2 hc2 => h c2 (List.mem_cons_of_mem _ hc2))]
    simp only [applyCopy]
    rw [if_neg]
    rintro ⟨h1, h2, h3⟩
    exact h c (List.mem_cons_self _ _) h1 ⟨h2, h3⟩

theorem forall2_map_right {α β γ : Type} {R : α → β → Prop} {Q : α → γ → Prop}
    {l1 : List α} {l2 : List β} {f : β → γ}
    (h : List.Forall₂ R l1 l2) (himp : ∀ a b, R a b → Q a (f b)) :
    List.Forall₂ Q l1 (l2.map f) := by
  induction h with
  | nil => exact List.Forall₂.nil
  | cons hr hrest ih => exact List.Forall₂.cons (himp _ _ hr) ih

theorem lin_lt {W H x y : Nat} (hx : x < W) (hy : y < H) : y * W + x < W * H := by
  calc y * W + x < y * W + W := Nat.add_lt_add_left hx _
    _ = (y + 1) * W := (Nat.succ_mul y W).symm
    _ ≤ H * W := Nat.mul_le_mul_right W hy
    _ = W * H := Nat.mul_comm H W

theorem lin_inj {W x1 y1 x2 y2 : Nat} (h1 : x1 < W) (h2 : x2 < W)
    (he : y1 * W + x1 = y2 * W + x2) : x1 = x2 ∧ y1 = y2 := by
  have hW : 0 < W := Nat.lt_of_le_of_lt (Nat.zero_le _) h1
  have hx : x1 = x2 := by
    have e1 : (x1 + y1 * W) % W = x1 := by
      rw [Nat.add_mul_mod_self_right]
      exact Nat.mod_eq_of_lt h1
    have e2 : (x2 + y2 * W) % W = x2 := by
      rw [Nat.add_mul_mod_self_right]
      exact Nat.mod_eq_of_lt h2
    rw [← e1, ← e2, Nat.add_comm x1 (y1 * W), Nat.add_comm x2 (y2 * W), he]
  refine ⟨hx, ?_⟩
  rw [hx] at he
  have hmul : y1 * W = y2 * W := Nat.add_right_cancel he
  exact Nat.eq_of_mul_eq_mul_right hW hmul

theorem foldl_set_length (W : Nat) (tiles : List TileId) : ∀ m : List Nat,
    (tiles.foldl (fun m t => m.set (t.index.y * W + t.index.x) t.pile_layer) m).length
      = m.length := by
  induction tiles with
  | nil => intro m; rfl
  | cons t0 rest ih =>
    intro m
    rw [List.foldl_cons, ih]
    exact List.length_set m _ _

theorem foldl_set_untouched (W : Nat) (tiles : List TileId) (j : Nat) : ∀ m : List Nat,
    (∀ t ∈ tiles, t.index.y * W + t.index.x ≠ j) →
    (tiles.foldl (fun m t => m.set (t.index.y * W + t.index.x) t.pile_layer) m)[j]?
      = m[j]? := by
  induction tiles with
  | nil => intro m _; rfl
  | cons t0 rest ih =>
    intro m hne
    rw [List.foldl_cons, ih _ (fun t ht => hne t (List.mem_cons_of_mem _ ht)),
      List.getElem?_set_ne (hne t0 (List.mem_cons_self _ _))]

theorem foldl_set_get {W H : Nat} (tiles : List TileId)
    (hin : ∀ t ∈ tiles, t.index.x < W ∧ t.index.y < H)
    (hnd : (tiles.map (fun t => t.index)).Nodup) : ∀ m : List Nat, m.length = W * H →
    ∀ t ∈ tiles,
      (tiles.foldl (fun m t => m.set (t.index.y * W + t.index.x) t.pile_layer) m)[
        t.index.y * W + t.index.x]? = some t.pile_layer := by
  induction tiles with
  | nil => intro m _ t ht; simp at ht
  | cons t0 rest ih =>
    intro m hm t ht
    have hnd2 : (t0.index ∉ rest.map (fun t => t.index))
        ∧ (rest.map (fun t => t.index)).Nodup := by
      constructor
      · exact (List.nodup_cons.mp (by simpa using hnd)).1
      · exact (List.nodup_cons.mp (by simpa using hnd)).2
    rcases List.mem_cons.mp ht with h1 | h1
    · subst h1
      rw [List.foldl_cons]
      rw [foldl_set_untouched]
      · rw [List.getElem?_set_self]
        rw [hm]
        exact lin_lt (hin t (List.mem_cons_self _ _)).1 (hin t (List.mem_cons_self _ _)).2
      · intro t2 ht2 hlin
        have hb2 := hin t2 (List.mem_cons_of_mem _ ht2)
        have hb0 := hin t (List.mem_cons_self _ _)
        obtain ⟨hxeq, hyeq⟩ := lin_inj hb2.1 hb0.1 hlin
        apply hnd2.1
        have hidx : t2.index = t.index := by
          have heta : t2.index = ⟨t2.index.x, t2.index.y⟩ := rfl
          rw [heta, hxeq, hyeq]
        rw [← hidx]
        exact List.mem_map.mpr ⟨t2, ht2, rfl⟩
    · rw [List.foldl_cons]
      exact ih (fun t2 ht2 => hin t2 (List.mem_cons_of_mem _ ht2)) hnd2.2 _
        (by rw [List.length_set]; exact hm) t h1

/-! Machinery for the visible-tile resolver. -/

theorem get_tile_spec {s : GpuTileStorage} (hInv : Inv s) (l : LayerId) (c : UVec2) :
    ∃ t, get_tile s l c = some t ∧ t.id.index = c ∧ t.id.pile_index < s.piles.length := by
  cases hocc : findTile (l, c) s.tiles with
  | some t =>
    have hwf := hInv.2.2.2.1 _ (findTile_some_mem hocc)
    exact ⟨t, get_tile_hit hocc, hwf.2.1, hwf.2.2.1.1⟩
  | none =>
    have h0 : (0 : Nat) < s.piles.length :=
      (hInv.2.2.2.1 _ (findTile_some_mem hInv.1)).2.2.1.1
    exact ⟨_, get_tile_miss hocc hInv.1, rfl, h0⟩

theorem getTiles_spec {s : GpuTileStorage} (hInv : Inv s) (layer : LayerId)
    (coords : List UVec2) : ∃ ts, getTiles s layer coords = some ts ∧
      ts.map (fun t => t.id.index) = coords ∧
      ∀ t ∈ ts, t.id.pile_index < s.piles.length := by
  induction coords with
  | nil => exact ⟨[], rfl, rfl, by simp⟩
  | cons c cs ih =>
    obtain ⟨t, ht, hidx, hp⟩ := get_tile_spec hInv layer c
    obtain ⟨ts, hts, hmap, hfa⟩ := ih
    refine ⟨t :: ts, ?_, ?_, ?_⟩
    · simp [getTiles, ht, hts]
    · simp [hmap, hidx]
    · intro t2 ht2
      rcases List.mem_cons.mp ht2 with h2 | h2
      · rw [h2]
        exact hp
      · exact hfa t2 h2

theorem addToGroups_flat_perm (acc : List (Nat × List TileId)) (t : TileId) :
    ((addToGroups acc t).flatMap (fun g => g.2)).Perm
      (t :: acc.flatMap (fun g => g.2)) := by
  induction acc with
  | nil => simp [addToGroups]
  | cons g rest ih =>
    by_cases hg : g.1 = t.pile_index
    · have hstep : addToGroups (g :: rest) t = (g.1, g.2 ++ [t]) :: rest := by
        simp [addToGroups, hg]
      rw [hstep, List.flatMap_cons, List.append_assoc]
      exact List.perm_middle
    · simp only [addToGroups, if_neg hg, List.flatMap_cons]
      exact ((ih.append_left g.2)).trans List.perm_middle

theorem foldl_groups_flat_perm (ids : List TileId) : ∀ acc : List (Nat × List TileId),
    ((ids.foldl addToGroups acc).flatMap (fun g => g.2)).Perm
      (ids ++ acc.flatMap (fun g => g.2)) := by
  induction ids with
  | nil =>
    intro acc
    simp
  | cons t rest ih =>
    intro acc
    rw [List.foldl_cons]
    have h1 := ih (addToGroups acc t)
    have h2 := (addToGroups_flat_perm acc t).append_left rest
    exact (h1.trans h2).trans List.perm_middle

theorem addToGroups_keys {acc : List (Nat × List TileId)} {t : TileId}
    {g : Nat × List TileId} (hg : g ∈ addToGroups acc t) :
    g.1 = t.pile_index ∨ g.1 ∈ acc.map Prod.fst := by
  induction acc with
  | nil =>
    simp [addToGroups] at hg
    left
    rw [hg]
  | cons g0 rest ih =>
    by_cases h0 : g0.1 = t.pile_index
    · simp only [addToGroups, h0, if_pos rfl] at hg
      rcases List.mem_cons.mp hg with h1 | h1
      · left
        rw [h1, ← h0]
      · right
        simp only [List.map_cons]
        exact List.mem_cons_of_mem _ (List.mem_map.mpr ⟨g, h1, rfl⟩)
    · simp only [addToGroups, if_neg h0] at hg
      rcases List.mem_cons.mp hg with h1 | h1
      · right
        rw [h1]
        simp
      · rcases ih h1 with h2 | h2
        · left
          exact h2
        · right
          simp only [List.map_cons]
          exact List.mem_cons_of_mem _ h2

theorem foldl_groups_keys (ids : List TileId) : ∀ acc : List (Nat × List TileId),
    ∀ g ∈ ids.foldl addToGroups acc,
      g.1 ∈ ids.map TileId.pile_index ∨ g.1 ∈ acc.map Prod.fst := by
  induction ids with
  | nil =>
    intro acc g hg
    right
    exact List.mem_map.mpr ⟨g, hg, rfl⟩
  | cons t rest ih =>
    intro acc g hg
    rw [List.foldl_cons] at hg
    rcases ih (addToGroups acc t) g hg with h1 | h1
    · left
      simp only [List.map_cons]
      exact List.mem_cons_of_mem _ h1
    · obtain ⟨g2, hg2, hgeq⟩ := List.mem_map.mp h1
      rcases addToGroups_keys hg2 with h2 | h2
      · left
        simp only [List.map_cons]
        rw [hgeq] at h2
        rw [h2]
        exact List.mem_cons_self _ _
      · right
        rw [← hgeq]
        exact h2

theorem mem_rangeIncl_le {a b z : Nat} (h : z ∈ rangeIncl a b) : a ≤ z ∧ z ≤ b := by
  rw [rangeIncl, List.mem_range'_1] at h
  omega

theorem mem_viewCoords {mn mx c : UVec2} :
    c ∈ viewCoords mn mx ↔ c.x ∈ rangeIncl mn.x mx.x ∧ c.y ∈ rangeIncl mn.y mx.y := by
  obtain ⟨cx, cy⟩ := c
  simp only [viewCoords, List.mem_flatMap, List.mem_map]
  constructor
  · rintro ⟨a, ha, b, hb, heq⟩
    cases heq
    exact ⟨ha, hb⟩
  · rintro ⟨h1, h2⟩
    exact ⟨cx, h1, cy, h2, rfl⟩

theorem get_tile_views_spec {s : GpuTileStorage} (hInv : Inv s) (rect : URect)
    (ttc : UVec2) (layer : LayerId)
    (h1 : rect.x + rect.width ≤ U32_MAX) (h2 : rect.y + rect.height ≤ U32_MAX)
    (h3 : 1 ≤ ttc.x) (h4 : 1 ≤ ttc.y) :
    ∃ gs, get_tile_views s rect ttc layer = some gs ∧
      ((gs.flatMap (fun g => g.tiles)).map (fun t => t.index)).Perm
        (viewCoords ⟨rect.x / TILE_SIZE, rect.y / TILE_SIZE⟩
          ⟨min ((rect.x + rect.width + TILE_SIZE - 1) / TILE_SIZE) (ttc.x - 1),
           min ((rect.y + rect.height + TILE_SIZE - 1) / TILE_SIZE) (ttc.y - 1)⟩) := by
  have hrange : tileRange rect ttc
      = some (⟨rect.x / TILE_SIZE, rect.y / TILE_SIZE⟩,
        ⟨min ((rect.x + rect.width + TILE_SIZE - 1) / TILE_SIZE) (ttc.x - 1),
         min ((rect.y + rect.height + TILE_SIZE - 1) / TILE_SIZE) (ttc.y - 1)⟩) := by
    simp [tileRange, u32add, u32sub, h1, h2, h3, h4]
  obtain ⟨ts, hts, hmap, hfa⟩ := getTiles_spec hInv layer
    (viewCoords ⟨rect.x / TILE_SIZE, rect.y / TILE_SIZE⟩
      ⟨min ((rect.x + rect.width + TILE_SIZE - 1) / TILE_SIZE) (ttc.x - 1),
       min ((rect.y + rect.height + TILE_SIZE - 1) / TILE_SIZE) (ttc.y - 1)⟩)
  have hfoldeq : ts.foldl (fun acc t => addToGroups acc t.id) []
      = (ts.map (fun t => t.id)).foldl addToGroups [] :=
    (List.foldl_map _ _ _ _).symm
  have hall : ((ts.foldl (fun acc t => addToGroups acc t.id) []).all
      (fun g => decide (g.1 < s.piles.length))) = true := by
    apply List.all_eq_true.mpr
    intro g hgmem
    apply decide_eq_true
    rw [hfoldeq] at hgmem
    rcases foldl_groups_keys (ts.map (fun t => t.id)) [] g hgmem with hk | hk
    · rw [List.map_map] at hk
      obtain ⟨t, htmem, hteq⟩ := List.mem_map.mp hk
      rw [← hteq]
      exact hfa t htmem
    · simp at hk
  have hviews : get_tile_views s rect ttc layer
      = some ((ts.foldl (fun acc t => addToGroups acc t.id) []).map
          (fun g => { pile := g.1, tiles := g.2 })) := by
    simp only [get_tile_views]
    rw [hrange]
    simp only []
    rw [hts]
    simp only []
    rw [if_pos hall]
  refine ⟨_, hviews, ?_⟩
  have hfm : ∀ gr : List (Nat × List TileId),
      ((gr.map (fun g => ({ pile := g.1, tiles := g.2 } : GroupedTileViews))).flatMap
        (fun g => g.tiles)) = gr.flatMap (fun g => g.2) := by
    intro gr
    induction gr with
    | nil => rfl
    | cons g rest ih => simp [ih]
  rw [hfm]
  have hperm := foldl_groups_flat_perm (ts.map (fun t => t.id)) []
  rw [← hfoldeq] at hperm
  simp only [List.flatMap_nil, List.append_nil] at hperm
  have hperm2 := hperm.map (fun t : TileId => t.index)
  rw [List.map_map] at hperm2
  rw [show ((fun t : TileId => t.index) ∘ (fun t : Tile => t.id))
      = (fun t : Tile => t.id.index) from rfl] at hperm2
  rw [hmap] at hperm2
  exact hperm2

/-! Claim theorems. -/

/-- C1: for every tile key absent from the tile index, `get_tile` returns a
tile backed by the sentinel (empty-tile) view whose reported coordinate
(`id.index`) equals the requested coordinate, and the call leaves the tile
index, the pile list and the free-slot list unchanged — it never
allocates. -/
theorem C1_get_tile_miss_is_patched_sentinel {s : GpuTileStorage} {l : LayerId} {i : UVec2}
    (hInv : Inv s) (hmiss : findTile (l, i) s.tiles = none) :
    ∃ t, get_tile s l i = some t ∧
      t.view = TexView.emptyTile ∧
      t.id.index = i ∧
      applyOp s (Op.opGetTile l i) = some s := by
  have hg := get_tile_miss hmiss hInv.1
  exact ⟨_, hg, rfl, rfl, by simp [applyOp, hg]⟩

theorem C1_witness :
    Inv GpuTileStorage.new ∧
    findTile (1, ⟨2, 3⟩) GpuTileStorage.new.tiles = none ∧
    ∃ t, get_tile GpuTileStorage.new 1 ⟨2, 3⟩ = some t ∧
      t.view = TexView.emptyTile ∧
      t.id.index = (⟨2, 3⟩ : UVec2) ∧
      applyOp GpuTileStorage.new (Op.opGetTile 1 ⟨2, 3⟩) = some GpuTileStorage.new :=
  ⟨inv_new, by decide, C1_get_tile_miss_is_patched_sentinel inv_new (by decide)⟩

/-- C10: for every key absent from the index whose layer id differs from
the reserved sentinel layer id, `get_tile` patches only the coordinate of
the returned tile: its `image_layer` still equals the sentinel layer id
(the zero UUID) and its `pile_index` and `pile_layer` equal 0 — so the
returned tile's key does not round-trip to the key that was looked up. -/
theorem C10_get_tile_miss_patches_only_index {s : GpuTileStorage} {l : LayerId} {i : UVec2}
    (hInv : Inv s) (hmiss : findTile (l, i) s.tiles = none) (hl : l ≠ 0) :
    ∃ t, get_tile s l i = some t ∧
      t.id.image_layer = 0 ∧
      t.id.pile_index = 0 ∧
      t.id.pile_layer = 0 ∧
      t.id.image_layer ≠ l := by
  have hg := get_tile_miss hmiss hInv.1
  exact ⟨_, hg, rfl, rfl, rfl, fun hc => hl hc.symm⟩

theorem C10_witness :
    Inv GpuTileStorage.new ∧
    findTile (2, ⟨5, 7⟩) GpuTileStorage.new.tiles = none ∧
    (2 : LayerId) ≠ 0 ∧
    ∃ t, get_tile GpuTileStorage.new 2 ⟨5, 7⟩ = some t ∧
      t.id.image_layer = 0 ∧
      t.id.pile_index = 0 ∧
      t.id.pile_layer = 0 ∧
      t.id.image_layer ≠ 2 :=
  ⟨inv_new, by decide, by decide,
    C10_get_tile_miss_patches_only_index inv_new (by decide) (by decide)⟩

/-- C2: after any sequence of interface operations, the mapping from tile
keys stored in the index to physical slots `(pile_index, pile_layer)` is
injective: entries resolving to the same slot carry the same key. -/
theorem C2_slot_mapping_injective {s : GpuTileStorage} (h : Reachable s) :
    ∀ e1 ∈ s.tiles, ∀ e2 ∈ s.tiles,
      (e1.2.id.pile_index, e1.2.id.pile_layer) = (e2.2.id.pile_index, e2.2.id.pile_layer) →
      e1.1 = e2.1 := by
  intro e1 he1 e2 he2 heq
  have := (inv_reachable h).2.2.1 e1 he1 e2 he2 heq
  rw [this]

theorem C2_witness :
    Reachable GpuTileStorage.new ∧
    ∀ e1 ∈ GpuTileStorage.new.tiles, ∀ e2 ∈ GpuTileStorage.new.tiles,
      (e1.2.id.pile_index, e1.2.id.pile_layer) = (e2.2.id.pile_index, e2.2.id.pile_layer) →
      e1.1 = e2.1 :=
  ⟨⟨[], rfl⟩, C2_slot_mapping_injective ⟨[], rfl⟩⟩

/-- C3: after any sequence of interface operations, every slot of every
existing pile is either occupied by exactly one tile stored in the index
or present in the free-slot list — never both and never neither. -/
theorem C3_slot_partition {s : GpuTileStorage} (h : Reachable s) :
    ∀ p, p < s.piles.length →
      ∀ la, la < (s.piles.getD p { capacity := 0 }).capacity →
        Xor' (∃! e : TileKey × Tile, e ∈ s.tiles ∧ slotOf e.2 = (p, la))
          ((p, la) ∈ s.available_slices) := by
  intro p hp la hla
  have hInv := inv_reachable h
  have hpart := hInv.2.2.2.2.2.2 p hp la hla
  by_cases hocc : OccupiedIn s.tiles (p, la)
  · left
    constructor
    · obtain ⟨e, he, hsl⟩ := hocc
      refine ⟨e, ⟨he, hsl⟩, ?_⟩
      rintro e2 ⟨he2, hsl2⟩
      exact hInv.2.2.1 e2 he2 e he (by rw [hsl2, hsl])
    · exact hpart.mp hocc
  · right
    constructor
    · by_contra hnot
      exact hocc (hpart.mpr hnot)
    · rintro ⟨e, ⟨he, hsl⟩, -⟩
      exact hocc ⟨e, he, hsl⟩

theorem C3_witness :
    Reachable GpuTileStorage.new ∧
    ∀ p, p < GpuTileStorage.new.piles.length →
      ∀ la, la < (GpuTileStorage.new.piles.getD p { capacity := 0 }).capacity →
        Xor' (∃! e : TileKey × Tile, e ∈ GpuTileStorage.new.tiles ∧ slotOf e.2 = (p, la))
          ((p, la) ∈ GpuTileStorage.new.available_slices) :=
  ⟨⟨[], rfl⟩, C3_slot_partition ⟨[], rfl⟩⟩

set_option maxRecDepth 4096 in
/-- C4: with pile capacity `TILES_PER_PILE` = 256, performing 257
allocations (`get_tile_mut` on 257 distinct missing keys) with zero
releases adds exactly 2 piles to the single startup pile, the second of
them lazily during the 257th allocation (after 256 allocations only one
pile has been added); each allocation with a non-empty free list pops its
last slot, and each allocation with an empty free list appends one pile of
fixed capacity and leaves `capacity − 1` of its slots free. -/
theorem C4_lazy_pile_growth (ks : List TileKey) (hnd : ks.Nodup)
    (hfresh : ∀ k ∈ ks, findTile k GpuTileStorage.new.tiles = none)
    (hlen : ks.length = TILES_PER_PILE + 1) :
    GpuTileStorage.new.piles.length = 1 ∧
    (∃ s2, applyOps GpuTileStorage.new (ks.map (fun k => Op.opGetTileMut k.1 k.2)) = some s2 ∧
      s2.piles.length = 3) ∧
    (∃ s1, applyOps GpuTileStorage.new
        ((ks.take TILES_PER_PILE).map (fun k => Op.opGetTileMut k.1 k.2)) = some s1 ∧
      s1.piles.length = 2) ∧
    (∀ s0 k, Inv s0 → findTile k s0.tiles = none → s0.available_slices ≠ [] →
      ∃ t s2, get_tile_mut s0 k.1 k.2 = some (t, s2) ∧
        s2.piles = s0.piles ∧
        s2.available_slices = s0.available_slices.dropLast ∧
        s0.available_slices.getLast? = some (t.id.pile_index, t.id.pile_layer)) ∧
    (∀ s0 k, Inv s0 → findTile k s0.tiles = none → s0.available_slices = [] →
      ∃ t s2, get_tile_mut s0 k.1 k.2 = some (t, s2) ∧
        s2.piles = s0.piles ++ [{ capacity := TILES_PER_PILE }] ∧
        s2.available_slices.length = TILES_PER_PILE - 1) := by
  refine ⟨rfl, ?_, ?_, ?_, ?_⟩
  · obtain ⟨s2, h1, -, h3⟩ := alloc_counts inv_new ks hnd hfresh
    refine ⟨s2, h1, ?_⟩
    have hcnt : (s2.available_slices.length, s2.piles.length)
        = iterCount (TILES_PER_PILE + 1) (0, 1) := by
      rw [h3, hlen]
      rfl
    have h4 := congrArg Prod.snd hcnt
    simp only [] at h4
    rw [h4]
    decide
  · have hnd2 : (ks.take TILES_PER_PILE).Nodup := hnd.sublist (List.take_sublist _ _)
    have hf2 : ∀ k ∈ ks.take TILES_PER_PILE, findTile k GpuTileStorage.new.tiles = none :=
      fun k hk => hfresh k (List.take_subset _ _ hk)
    obtain ⟨s1, h1, -, h3⟩ := alloc_counts inv_new (ks.take TILES_PER_PILE) hnd2 hf2
    refine ⟨s1, h1, ?_⟩
    have hlt : (ks.take TILES_PER_PILE).length = TILES_PER_PILE := by
      rw [List.length_take, hlen]
      decide
    have hcnt : (s1.available_slices.length, s1.piles.length)
        = iterCount TILES_PER_PILE (0, 1) := by
      rw [h3, hlt]
      rfl
    have h4 := congrArg Prod.snd hcnt
    simp only [] at h4
    rw [h4]
    decide
  · intro s0 k hInv0 hv hne
    obtain ⟨sl, hlast⟩ : ∃ sl, s0.available_slices.getLast? = some sl :=
      ⟨s0.available_slices.getLast hne, List.getLast?_eq_getLast _ hne⟩
    have hslmem : sl ∈ s0.available_slices := by
      have := List.getLast?_eq_getLast s0.available_slices hne
      rw [this] at hlast
      rw [← Option.some.inj hlast]
      exact List.getLast_mem hne
    have hp : sl.1 < s0.piles.length := (hInv0.2.2.2.2.2.1 sl hslmem).1.1
    exact ⟨mkTile k.1 k.2 sl, _, gtm_vacant_nonempty hv hlast hp, rfl, rfl, hlast⟩
  · intro s0 k hInv0 hv he
    refine ⟨mkTile k.1 k.2 (s0.piles.length, TILES_PER_PILE - 1), _,
      gtm_vacant_empty hv he, rfl, ?_⟩
    simp

theorem C4_witness :
    ∃ ks : List TileKey, ks.Nodup ∧
      (∀ k ∈ ks, findTile k GpuTileStorage.new.tiles = none) ∧
      ks.length = TILES_PER_PILE + 1 ∧
      (GpuTileStorage.new.piles.length = 1 ∧
      (∃ s2, applyOps GpuTileStorage.new (ks.map (fun k => Op.opGetTileMut k.1 k.2)) = some s2 ∧
        s2.piles.length = 3) ∧
      (∃ s1, applyOps GpuTileStorage.new
          ((ks.take TILES_PER_PILE).map (fun k => Op.opGetTileMut k.1 k.2)) = some s1 ∧
        s1.piles.length = 2) ∧
      (∀ s0 k, Inv s0 → findTile k s0.tiles = none → s0.available_slices ≠ [] →
        ∃ t s2, get_tile_mut s0 k.1 k.2 = some (t, s2) ∧
          s2.piles = s0.piles ∧
          s2.available_slices = s0.available_slices.dropLast ∧
          s0.available_slices.getLast? = some (t.id.pile_index, t.id.pile_layer)) ∧
      (∀ s0 k, Inv s0 → findTile k s0.tiles = none → s0.available_slices = [] →
        ∃ t s2, get_tile_mut s0 k.1 k.2 = some (t, s2) ∧
          s2.piles = s0.piles ++ [{ capacity := TILES_PER_PILE }] ∧
          s2.available_slices.length = TILES_PER_PILE - 1)) := by
  refine ⟨(List.range (TILES_PER_PILE + 1)).map (fun n => ((1 : LayerId), (⟨n, 0⟩ : UVec2))),
    ?_, ?_, ?_, ?_⟩
  · refine List.Nodup.map ?_ (List.nodup_range _)
    intro a b hab
    simpa using hab
  · intro k hk
    obtain ⟨n, -, hn⟩ := List.mem_map.mp hk
    rw [← hn]
    simp [GpuTileStorage.new, findTile, sentinelKey, EMPTY_TILE_ID]
  · simp
  · exact C4_lazy_pile_growth _
      (by
        refine List.Nodup.map ?_ (List.nodup_range _)
        intro a b hab
        simpa using hab)
      (by
        intro k hk
        obtain ⟨n, -, hn⟩ := List.mem_map.mp hk
        rw [← hn]
        simp [GpuTileStorage.new, findTile, sentinelKey, EMPTY_TILE_ID])
      (by simp)

/-- C7: after a layer (with a non-sentinel layer id) is uploaded via
`upload_image`, every coordinate of its tile grid is bound in the index to
a stable, non-sentinel tile: `get_tile` returns exactly that stored tile
(hence the same slot and view on every repeated call), the tile's view is
not the sentinel empty-tile view, its pile index is ≥ 1, and the binding
survives any later `get_tile_mut` lookup unchanged. -/
theorem C7_upload_idempotent_lookup {s s2 : GpuTileStorage} {layer : LayerId}
    {w h : Nat} {img : Nat → Nat → Nat} {cmds : List CopyCmd}
    (hInv : Inv s) (hlay : layer ≠ 0)
    (hup : upload_image s layer w h img = some (s2, cmds)) :
    ∀ x y, x < (calc_tile_count ⟨w, h⟩).x → y < (calc_tile_count ⟨w, h⟩).y →
      ∃ t, get_tile s2 layer ⟨x, y⟩ = some t ∧
        findTile (layer, ⟨x, y⟩) s2.tiles = some t ∧
        t.view ≠ TexView.emptyTile ∧
        1 ≤ t.id.pile_index ∧
        (∀ l2 i2 t2 s3, get_tile_mut s2 l2 i2 = some (t2, s3) →
          get_tile s3 layer ⟨x, y⟩ = some t) := by
  obtain ⟨s2e, cmdse, hupe, hInv2, hpres, ts, halloc, hcmds, hrel⟩ :=
    upload_image_spec hInv layer w h img
  rw [hupe] at hup
  have hpair := Option.some.inj hup
  have hs2 : s2e = s2 := congrArg Prod.fst hpair
  subst hs2
  intro x y hx hy
  have hc : (⟨x, y⟩ : UVec2) ∈ uploadCoords (calc_tile_count ⟨w, h⟩) :=
    mem_uploadCoords.mpr ⟨hx, hy⟩
  obtain ⟨t, htmem, hfind, hlayt, hidx⟩ := forall2_mem_left hrel hc
  have hmem := findTile_some_mem hfind
  have hkeyne : ((layer, ⟨x, y⟩) : TileKey) ≠ sentinelKey := by
    intro hcq
    exact hlay (congrArg Prod.fst hcq)
  have hwf := hInv2.2.2.2.1 _ hmem
  obtain ⟨hview, hpile⟩ := hwf.2.2.2.2 hkeyne
  refine ⟨t, get_tile_hit hfind, hfind, ?_, hpile, ?_⟩
  · rw [hview]
    simp
  · intro l2 i2 t2 s3 hmut
    obtain ⟨t3, s3e, heq, hI3, hf3, hl3, hi3, hpres3⟩ := gtm_spec hInv2 l2 i2
    rw [heq] at hmut
    have hpair2 := Option.some.inj hmut
    have hs3 : s3e = s3 := congrArg Prod.snd hpair2
    subst hs3
    exact get_tile_hit (hpres3 _ _ hfind)

theorem C7_witness :
    Inv GpuTileStorage.new ∧ (1 : LayerId) ≠ 0 ∧
    ∃ s2 cmds, upload_image GpuTileStorage.new 1 300 300 (fun _ _ => 0) = some (s2, cmds) ∧
      (∀ x y, x < (calc_tile_count ⟨300, 300⟩).x → y < (calc_tile_count ⟨300, 300⟩).y →
        ∃ t, get_tile s2 1 ⟨x, y⟩ = some t ∧
          findTile (1, ⟨x, y⟩) s2.tiles = some t ∧
          t.view ≠ TexView.emptyTile ∧
          1 ≤ t.id.pile_index ∧
          (∀ l2 i2 t2 s3, get_tile_mut s2 l2 i2 = some (t2, s3) →
            get_tile s3 1 ⟨x, y⟩ = some t)) := by
  obtain ⟨s2, cmds, hup, -⟩ := upload_image_spec inv_new 1 300 300 (fun _ _ => 0)
  exact ⟨inv_new, by decide, s2, cmds, hup,
    C7_upload_idempotent_lookup inv_new (by decide) hup⟩

/-- C8: `upload_image` splits the image into one chunk per grid
coordinate, each copy command covering exactly the chunk extent
`min(TILE_SIZE, image_extent − chunk_origin)` per axis with data taken
from the image at the chunk origin, all recorded into the single batch it
returns (submitted once); applying the batch leaves every texel that lies
outside the extent of every command addressing its slot — in particular
every texel of a chunk's own slot beyond the bounds of a partial edge
chunk — with its previously resident value. -/
theorem C8_partial_chunk_copies {s s2 : GpuTileStorage} {layer : LayerId} {w h : Nat}
    {img : Nat → Nat → Nat} {cmds : List CopyCmd}
    (hInv : Inv s) (hup : upload_image s layer w h img = some (s2, cmds)) :
    cmds.length = (calc_tile_count ⟨w, h⟩).x * (calc_tile_count ⟨w, h⟩).y ∧
    List.Forall₂ (fun (c : UVec2) (cmd : CopyCmd) =>
        cmd.width = min TILE_SIZE (w - c.x * TILE_SIZE) ∧
        cmd.height = min TILE_SIZE (h - c.y * TILE_SIZE) ∧
        ∀ dx dy, cmd.src dx dy = img (c.x * TILE_SIZE + dx) (c.y * TILE_SIZE + dy))
      (uploadCoords (calc_tile_count ⟨w, h⟩)) cmds ∧
    (∀ g sl p, (∀ cmd ∈ cmds, sl = (cmd.dstPile, cmd.dstLayer) →
        ¬(p.1 < cmd.width ∧ p.2 < cmd.height)) →
      applyBatch g cmds sl p = g sl p) ∧
    (∀ cmd ∈ cmds, ∀ g p, ¬(p.1 < cmd.width ∧ p.2 < cmd.height) →
      applyBatch g cmds (cmd.dstPile, cmd.dstLayer) p = g (cmd.dstPile, cmd.dstLayer) p) := by
  obtain ⟨s2e, cmdse, hupe, hInv2, hpres, ts, halloc, hcmds, hrel⟩ :=
    upload_image_spec hInv layer w h img
  rw [hupe] at hup
  have hpair := Option.some.inj hup
  have hs2 : s2e = s2 := congrArg Prod.fst hpair
  have hce : cmdse = cmds := congrArg Prod.snd hpair
  subst hs2
  subst hce
  have hslot_unique : ∀ t1 ∈ ts, ∀ t2 ∈ ts, slotOf t1 = slotOf t2 → t1 = t2 := by
    intro t1 ht1 t2 ht2 hsl
    obtain ⟨c1, hc1, hf1, -, -⟩ := forall2_mem_right hrel ht1
    obtain ⟨c2, hc2, hf2, -, -⟩ := forall2_mem_right hrel ht2
    have hm1 := findTile_some_mem hf1
    have hm2 := findTile_some_mem hf2
    have := hInv2.2.2.1 _ hm1 _ hm2 hsl
    exact congrArg Prod.snd this
  refine ⟨?_, ?_, ?_, ?_⟩
  · rw [hcmds, List.length_map, ← List.Forall₂.length_eq hrel]
    exact uploadCoords_length (calc_tile_count ⟨w, h⟩).x (calc_tile_count ⟨w, h⟩).y
  · rw [hcmds]
    apply forall2_map_right hrel
    intro c t hRt
    obtain ⟨hf, hl, hi⟩ := hRt
    refine ⟨?_, ?_, ?_⟩
    · simp [chunkCmd, hi]
    · simp [chunkCmd, hi]
    · intro dx dy
      simp [chunkCmd, hi]
  · intro g sl p hcond
    exact applyBatch_untouched hcond
  · intro cmd hcm g p hout
    apply applyBatch_untouched
    intro c2 hc2 hsl
    rw [hcmds] at hcm hc2
    obtain ⟨t1, ht1, rfl⟩ := List.mem_map.mp hcm
    obtain ⟨t2, ht2, rfl⟩ := List.mem_map.mp hc2
    have hslot : slotOf t1 = slotOf t2 := by
      simpa [chunkCmd, slotOf] using hsl
    have heq := hslot_unique t1 ht1 t2 ht2 hslot
    subst heq
    exact hout

theorem C8_witness :
    Inv GpuTileStorage.new ∧
    ∃ s2 cmds, upload_image GpuTileStorage.new 2 290 270 (fun x y => x + y) = some (s2, cmds) ∧
      (cmds.length = (calc_tile_count ⟨290, 270⟩).x * (calc_tile_count ⟨290, 270⟩).y ∧
      List.Forall₂ (fun (c : UVec2) (cmd : CopyCmd) =>
          cmd.width = min TILE_SIZE (290 - c.x * TILE_SIZE) ∧
          cmd.height = min TILE_SIZE (270 - c.y * TILE_SIZE) ∧
          ∀ dx dy, cmd.src dx dy = (fun x y => x + y) (c.x * TILE_SIZE + dx) (c.y * TILE_SIZE + dy))
        (uploadCoords (calc_tile_count ⟨290, 270⟩)) cmds ∧
      (∀ g sl p, (∀ cmd ∈ cmds, sl = (cmd.dstPile, cmd.dstLayer) →
          ¬(p.1 < cmd.width ∧ p.2 < cmd.height)) →
        applyBatch g cmds sl p = g sl p) ∧
      (∀ cmd ∈ cmds, ∀ g p, ¬(p.1 < cmd.width ∧ p.2 < cmd.height) →
        applyBatch g cmds (cmd.dstPile, cmd.dstLayer) p = g (cmd.dstPile, cmd.dstLayer) p)) := by
  obtain ⟨s2, cmds, hup, -⟩ := upload_image_spec inv_new 2 290 270 (fun x y => x + y)
  exact ⟨inv_new, s2, cmds, hup, C8_partial_chunk_copies inv_new hup⟩

/-- C9: the mapping buffer built for a pile group is a dense array of
length `grid_width × grid_height` whose entries all start as the no-tile
sentinel `u32::MAX`; afterwards the entry at
`coordinate.y * grid_width + coordinate.x` of every tile in the group
equals that tile's array-layer index, and every entry for a coordinate not
in the group still holds the sentinel. -/
theorem C9_mapper_buffer {ttc : UVec2} {tiles : List TileId}
    (hin : ∀ t ∈ tiles, t.index.x < ttc.x ∧ t.index.y < ttc.y)
    (hnd : (tiles.map (fun t => t.index)).Nodup) :
    (buildMapper ttc tiles).length = ttc.x * ttc.y ∧
    (∀ t ∈ tiles,
      (buildMapper ttc tiles)[t.index.y * ttc.x + t.index.x]? = some t.pile_layer) ∧
    (∀ c : UVec2, c.x < ttc.x → c.y < ttc.y → c ∉ tiles.map (fun t => t.index) →
      (buildMapper ttc tiles)[c.y * ttc.x + c.x]? = some U32_MAX) := by
  refine ⟨?_, ?_, ?_⟩
  · unfold buildMapper
    rw [foldl_set_length]
    exact List.length_replicate _ _
  · intro t ht
    unfold buildMapper
    exact foldl_set_get tiles hin hnd _ (List.length_replicate _ _) t ht
  · intro c hcx hcy hcnot
    unfold buildMapper
    rw [foldl_set_untouched]
    · rw [List.getElem?_replicate, if_pos (lin_lt hcx hcy)]
    · intro t ht hlin
      obtain ⟨hxeq, hyeq⟩ := lin_inj (hin t ht).1 hcx hlin
      apply hcnot
      have hidx : c = t.index := by
        have heta : t.index = ⟨t.index.x, t.index.y⟩ := rfl
        rw [heta, hxeq, hyeq]
      rw [hidx]
      exact List.mem_map.mpr ⟨t, ht, rfl⟩

theorem C9_witness :
    (∀ t ∈ ([{ image_layer := 1, index := ⟨0, 0⟩, pile_index := 1, pile_layer := 5 },
             { image_layer := 1, index := ⟨1, 1⟩, pile_index := 1, pile_layer := 9 }]
        : List TileId), t.index.x < (2 : Nat) ∧ t.index.y < (2 : Nat)) ∧
    (([{ image_layer := 1, index := ⟨0, 0⟩, pile_index := 1, pile_layer := 5 },
       { image_layer := 1, index := ⟨1, 1⟩, pile_index := 1, pile_layer := 9 }]
        : List TileId).map (fun t => t.index)).Nodup ∧
    ((buildMapper ⟨2, 2⟩ [{ image_layer := 1, index := ⟨0, 0⟩, pile_index := 1, pile_layer := 5 },
        { image_layer := 1, index := ⟨1, 1⟩, pile_index := 1, pile_layer := 9 }]).length = 2 * 2 ∧
    (∀ t ∈ ([{ image_layer := 1, index := ⟨0, 0⟩, pile_index := 1, pile_layer := 5 },
             { image_layer := 1, index := ⟨1, 1⟩, pile_index := 1, pile_layer := 9 }]
        : List TileId),
      (buildMapper ⟨2, 2⟩ [{ image_layer := 1, index := ⟨0, 0⟩, pile_index := 1, pile_layer := 5 },
        { image_layer := 1, index := ⟨1, 1⟩, pile_index := 1, pile_layer := 9 }])[
          t.index.y * 2 + t.index.x]? = some t.pile_layer) ∧
    (∀ c : UVec2, c.x < 2 → c.y < 2 →
      c ∉ ([{ image_layer := 1, index := ⟨0, 0⟩, pile_index := 1, pile_layer := 5 },
            { image_layer := 1, index := ⟨1, 1⟩, pile_index := 1, pile_layer := 9 }]
        : List TileId).map (fun t => t.index) →
      (buildMapper ⟨2, 2⟩ [{ image_layer := 1, index := ⟨0, 0⟩, pile_index := 1, pile_layer := 5 },
        { image_layer := 1, index := ⟨1, 1⟩, pile_index := 1, pile_layer := 9 }])[
          c.y * 2 + c.x]? = some U32_MAX)) :=
  ⟨by decide, by decide, C9_mapper_buffer (by decide) (by decide)⟩

/-- C5 (amended): with tile size 256, viewport rectangle
(x=0, y=0, w=300, h=300), the identity transform and the tile grid of a
300×300 layer — `calc_tile_count (300,300) = (2,2)` — `get_tile_views`
enumerates exactly the coordinate set {(0,0), (0,1), (1,0), (1,1)}, each
coordinate appearing exactly once across the returned pile groups. (As
stated for an arbitrary grid the claim fails: with a larger grid the
ceiling-derived inclusive maximum over-enumerates, see the
counterexample.) -/
theorem C5_viewport_300_grid2 {s : GpuTileStorage} {layer : LayerId} (hInv : Inv s) :
    calc_tile_count ⟨300, 300⟩ = ⟨2, 2⟩ ∧
    ∃ gs, get_tile_views s ⟨0, 0, 300, 300⟩ ⟨2, 2⟩ layer = some gs ∧
      ((gs.flatMap (fun g => g.tiles)).map (fun t => t.index)).Perm
        [⟨0, 0⟩, ⟨0, 1⟩, ⟨1, 0⟩, ⟨1, 1⟩] := by
  refine ⟨by decide, ?_⟩
  obtain ⟨gs, hgs, hperm⟩ := get_tile_views_spec hInv ⟨0, 0, 300, 300⟩ ⟨2, 2⟩ layer
    (by decide) (by decide) (by decide) (by decide)
  exact ⟨gs, hgs, hperm⟩

theorem C5_witness :
    Inv GpuTileStorage.new ∧
    (calc_tile_count ⟨300, 300⟩ = ⟨2, 2⟩ ∧
    ∃ gs, get_tile_views GpuTileStorage.new ⟨0, 0, 300, 300⟩ ⟨2, 2⟩ 9 = some gs ∧
      ((gs.flatMap (fun g => g.tiles)).map (fun t => t.index)).Perm
        [⟨0, 0⟩, ⟨0, 1⟩, ⟨1, 0⟩, ⟨1, 1⟩]) :=
  ⟨inv_new, C5_viewport_300_grid2 inv_new⟩

/-- C5 counterexample: for the same viewport rectangle (0,0,300,300) but a
4×4 tile grid, `get_tile_views` enumerates nine coordinates — the
ceiling-division maximum 2 is used as an inclusive bound and the clamp
`min (grid − 1) = 3` does not cut it — so the enumerated set is not
{(0,0), (0,1), (1,0), (1,1)}. -/
theorem C5_counterexample :
    (get_tile_views GpuTileStorage.new ⟨0, 0, 300, 300⟩ ⟨4, 4⟩ 7).map
        (fun gs => (gs.flatMap (fun g => g.tiles)).map (fun t => t.index))
      = some [⟨0, 0⟩, ⟨0, 1⟩, ⟨0, 2⟩, ⟨1, 0⟩, ⟨1, 1⟩, ⟨1, 2⟩, ⟨2, 0⟩, ⟨2, 1⟩, ⟨2, 2⟩] := by
  decide

/-- C6 (amended): whenever the viewport rectangle's `x + width` and
`y + height` do not overflow u32 and both tile-grid dimensions are at
least 1, `get_tile_views` succeeds (no panic, no arithmetic
underflow/overflow) and every enumerated tile coordinate is clamped into
`[0, grid_dims − 1]`. (As stated for every rectangle and every grid size
the claim fails: a grid dimension of 0 underflows `total_tile_count − 1`,
see the counterexample.) -/
theorem C6_clamped_in_grid {s : GpuTileStorage} {rect : URect} {ttc : UVec2}
    {layer : LayerId} (hInv : Inv s)
    (h1 : rect.x + rect.width ≤ U32_MAX) (h2 : rect.y + rect.height ≤ U32_MAX)
    (h3 : 1 ≤ ttc.x) (h4 : 1 ≤ ttc.y) :
    ∃ gs, get_tile_views s rect ttc layer = some gs ∧
      ∀ g ∈ gs, ∀ tid ∈ g.tiles, tid.index.x ≤ ttc.x - 1 ∧ tid.index.y ≤ ttc.y - 1 := by
  obtain ⟨gs, hgs, hperm⟩ := get_tile_views_spec hInv rect ttc layer h1 h2 h3 h4
  refine ⟨gs, hgs, ?_⟩
  intro g hgm tid htid
  have hmem : tid.index ∈ (gs.flatMap (fun g => g.tiles)).map (fun t => t.index) :=
    List.mem_map.mpr ⟨tid, List.mem_flatMap.mpr ⟨g, hgm, htid⟩, rfl⟩
  have hcoord := hperm.mem_iff.mp hmem
  have hvc := mem_viewCoords.mp hcoord
  constructor
  · exact le_trans (mem_rangeIncl_le hvc.1).2 (min_le_right _ _)
  · exact le_trans (mem_rangeIncl_le hvc.2).2 (min_le_right _ _)

theorem C6_witness :
    Inv GpuTileStorage.new ∧
    (0 : Nat) + 500 ≤ U32_MAX ∧ (0 : Nat) + 500 ≤ U32_MAX ∧
    (1 : Nat) ≤ 1 ∧ (1 : Nat) ≤ 1 ∧
    ∃ gs, get_tile_views GpuTileStorage.new ⟨0, 0, 500, 500⟩ ⟨1, 1⟩ 3 = some gs ∧
      ∀ g ∈ gs, ∀ tid ∈ g.tiles, tid.index.x ≤ 1 - 1 ∧ tid.index.y ≤ 1 - 1 :=
  ⟨inv_new, by decide, by decide, by decide, by decide,
    C6_clamped_in_grid inv_new (by decide) (by decide) (by decide) (by decide)⟩

/-- C6 counterexample: with a 0×0 tile grid (a zero-sized layer) even the
1×1 viewport rectangle at the origin makes `get_tile_views` fail — the
`total_tile_count − 1` clamp underflows u32 — contradicting the claim
that the resolver never fails for every viewport rectangle and every
tile-grid size. -/
theorem C6_counterexample :
    get_tile_views GpuTileStorage.new ⟨0, 0, 1, 1⟩ ⟨0, 0⟩ 7 = none := by
  decide

end Cyancia
